import Mathlib

/-!
# Verification of the local git provider (`pr_agent/git_providers/local_git_provider.py`)

This file gives a shallow embedding of the module's data model and operations
and proves the specification's claims about it.

Two complementary models are used, each scoped to the state the claims touch:

* a *branch-state management* model (`MRepo`) for construction, preparation
  and teardown (`LocalGitProvider.__init__`, `prepare_repo`, `__del__`),
  tracking the working tree's dirtiness, the set of branch heads, the
  checked-out branch (or a detached mid-rebase `HEAD`), whether a rebase onto
  `main` would conflict, and whether a conflicted rebase's unmerged index
  entries are present;
* a *content* model (`FileTree`, `DiffItem`) for the diff synthesizer and the
  read-only queries (`get_diff_files`, `get_files`, `get_languages`,
  `get_pr_description`), tracking the file trees at the two compared commits.

The git library layer (GitPython) is embedded from its observable behaviour:
`commit.diff(other, create_patch=True)` parses the textual patch output of
`git diff`, in which a `/dev/null` side becomes a `None` path, while
`commit.diff(other)` (no patch) parses the raw `--raw -z` output, in which
both path fields always carry the single recorded path.  The reversal flag
`R=True` swaps the two sides of the comparison.  Rename detection (`-M`, on by
default in the library) is modelled for exact content matches, the case the
specification exercises; similarity-scored renames and binary blobs are not
modelled, and no claim depends on the raw hunk text, which is carried as an
uninterpreted string.
-/

/-- Errors surfaced by the module, one constructor per failure mode of the
Python code (the source raises `ValueError` / `KeyError` / `AttributeError` /
`GitCommandError`; the spec's taxonomy names them `DirtyWorkingTreeError`,
`RebaseConflictError`, `CleanupError`, `BranchNotFoundError`). -/
inductive PyErr where
  | dirtyWorkingTree
  | rebaseConflict
  | cleanupError
  | gitCommandError
  | keyError
  | attributeError
  | zeroDivision
  deriving DecidableEq, Repr

/-- Branch-state management model of the repository: whether the working tree
has uncommitted changes, the branch heads by name, the checked-out branch
(`none` while `HEAD` is detached, which in this model happens only mid-rebase),
whether rebasing the current work onto `main` conflicts, and whether unmerged
index entries of an in-progress conflicted rebase are present. -/
structure MRepo where
  dirty : Bool
  heads : List String
  headState : Option String
  rebaseConflict : Bool
  unmergedIndex : Bool
  deriving DecidableEq, Repr

/-- `repo.git.checkout(b)`: switching to an existing branch.  Fails when the
index holds unmerged entries of an in-progress rebase (git: "error: you need
to resolve your current index first") or when no branch of that name
exists. -/
def gitCheckoutBranch (b : String) (r : MRepo) : Except PyErr MRepo :=
  if r.unmergedIndex then .error .gitCommandError
  else if b ∈ r.heads then .ok { r with headState := some b }
  else .error .gitCommandError

/-- `repo.delete_head(b, force=True)`: `git branch -D b`, which removes the
head unless it is the currently checked-out branch. -/
def deleteHeadForce (b : String) (r : MRepo) : Except PyErr MRepo :=
  if r.headState = some b then .error .gitCommandError
  else .ok { r with heads := r.heads.erase b }

/-- `repo.git.checkout('HEAD', b=tmp)`: create a branch at the current commit
and check it out. -/
def checkoutNewBranch (b : String) (r : MRepo) : MRepo :=
  { r with heads := b :: r.heads, headState := some b }

/-- `LocalGitProvider.prepare_repo` (lines 62-77): refuse a dirty tree, delete
a stale temporary branch, create and check out the temporary branch, rebase it
onto `main`.  A conflicting rebase stops mid-rebase: the index is left with
unmerged entries and `HEAD` detached from any branch, and the `ValueError`
("Error while rebasing...") is raised.  The returned state is the repository
after whatever steps ran before the first failure, paired with that failure
when one occurred. -/
def prepare_repo (tmp : String) (r : MRepo) : MRepo × Option PyErr :=
  if r.dirty then (r, some .dirtyWorkingTree)
  else
    match (if tmp ∈ r.heads then deleteHeadForce tmp r else .ok r) with
    | .error e => (r, some e)
    | .ok r1 =>
      let r2 := checkoutNewBranch tmp r1
      if r2.rebaseConflict then
        ({ r2 with headState := none, unmergedIndex := true },
         some .rebaseConflict)
      else (r2, none)

/-- `LocalGitProvider.__del__` (lines 48-60), the teardown: check out the
branch recorded at construction, then delete the temporary branch when it
still exists; a deletion failure is reported (the source wraps it in a
`ValueError`, the spec calls it `CleanupError`) after the checkout already
took effect.  The initial checkout itself is unguarded: when it fails — as it
does on the unmerged index of a conflicted rebase — its `GitCommandError`
propagates and nothing is restored. -/
def teardown (origBranch tmp : String) (r : MRepo) : MRepo × Option PyErr :=
  match gitCheckoutBranch origBranch r with
  | .error e => (r, some e)
  | .ok r1 =>
    if tmp ∈ r1.heads then
      match deleteHeadForce tmp r1 with
      | .ok r2 => (r2, none)
      | .error _ => (r1, some .cleanupError)
    else (r1, none)

/-- The state-mutating preparation helpers `LocalGitProvider` defines, by
their source names: the class defines exactly one, `prepare_repo`
(line 62). -/
def classPrepMethodTable (name : String) :
    Option (String → MRepo → MRepo × Option PyErr) :=
  if name = "prepare_repo" then some prepare_repo else none

/-- Modelled from the spec: the abstract `GitProvider` interface
(`pr_agent/git_providers/git_provider.py`, not under `src/`) declares only the
public operations of spec §6 (`get_diff_files`, `get_files`,
`publish_description`, `publish_comment`, the unsupported publishing and query
operations, `get_languages`, `get_pr_branch`, `get_user_id`,
`get_pr_description`, `get_pr_title`); it declares no preparation helper, and
in particular no attribute named `_prepare_repo`. -/
def basePrepMethodTable (_name : String) :
    Option (String → MRepo → MRepo × Option PyErr) :=
  none

/-- Attribute resolution for the preparation call in `__init__`: the instance
class first, then the base interface. -/
def resolvePrepMethod (name : String) :
    Option (String → MRepo → MRepo × Option PyErr) :=
  match classPrepMethodTable name with
  | some f => some f
  | none => basePrepMethodTable name

/-- `LocalGitProvider.__init__` (lines 32-47) up to and including its first
method call: it records the repository, the current branch name and the
generated temporary branch name, then invokes `self._prepare_repo()`.  The
attribute lookup decides whether that call can proceed; when it cannot, Python
raises `AttributeError` and construction aborts with the repository untouched
(the eager diff computation and `PullRequestMimic` construction on line 40 are
never reached). -/
def localGitProvider_init (r : MRepo) (tmp : String) : MRepo × Option PyErr :=
  match resolvePrepMethod "_prepare_repo" with
  | some f => f tmp r
  | none => (r, some .attributeError)

/-- A blob's text content. -/
abbrev Blob := String

/-- The tracked files of a commit's tree: slash-separated repository path to
blob content.  Paths are unique in a git tree (`Nodup` on the keys where a
proof needs it). -/
abbrev FileTree := List (String × Blob)

/-- `treeLookup t p` is the blob at path `p`, when tracked (also used to
resolve a branch name to its commit's tree). -/
def treeLookup {α : Type} (t : List (String × α)) (p : String) : Option α :=
  match t with
  | [] => none
  | q :: t => if q.1 = p then some q.2 else treeLookup t p

/-- One entry of a GitPython diff index (`git.Diff`): the two sides' paths and
blobs, the change-kind flags, and the raw hunk text (uninterpreted here). -/
structure DiffItem where
  a_path : Option String
  b_path : Option String
  a_blob : Option Blob
  b_blob : Option Blob
  new_file : Bool
  deleted_file : Bool
  renamed_file : Bool
  diffText : String
  deriving DecidableEq, Repr

/-- Modelled from the spec: the `EDIT_TYPE` enumeration of
`pr_agent/git_providers/git_provider.py` (not under `src/`), spec §3:
`ADDED | DELETED | MODIFIED | RENAMED`. -/
inductive EDIT_TYPE where
  | ADDED
  | DELETED
  | MODIFIED
  | RENAMED
  deriving DecidableEq, Repr

/-- Modelled from the spec: the File Patch Record (`FilePatchInfo` of
`pr_agent/git_providers/git_provider.py`, not under `src/`), spec §3:
original content, new content, raw patch text, post-change path, edit type,
and the pre-change path when it changed.  The constructor receives GitPython's
`b_path` and `a_path` values, which the library types as optional, so the two
path fields are `Option String`. -/
structure FilePatchInfo where
  original_content : String
  new_content : String
  raw_patch : String
  path : Option String
  edit_type : EDIT_TYPE
  old_filename : Option String
  deriving DecidableEq, Repr

/-- Patch-format diff entry for a file added on the b side (`new file mode`):
the a blob is absent; the parsed a path is the `--- /dev/null` line, which the
library maps to `None` — except for an empty added file, whose patch has no
hunks and no `---` line, so the a path falls back to the header path. -/
def addedItemPatch (p : String) (c : Blob) : DiffItem :=
  { a_path := if c = "" then some p else none
    b_path := some p
    a_blob := none
    b_blob := some c
    new_file := true
    deleted_file := false
    renamed_file := false
    diffText := "" }

/-- Patch-format diff entry for a file deleted from the a side
(`deleted file mode`): the b blob is absent; the parsed b path is the
`+++ /dev/null` line, which the library maps to `None` — except for an empty
deleted file, whose patch has no hunks, so the b path falls back to the
header path. -/
def deletedItemPatch (p : String) (c : Blob) : DiffItem :=
  { a_path := some p
    b_path := if c = "" then some p else none
    a_blob := some c
    b_blob := none
    new_file := false
    deleted_file := true
    renamed_file := false
    diffText := "" }

/-- Patch-format diff entry for a file modified in place: both sides carry the
same path and their blobs. -/
def modifiedItemPatch (p : String) (ca cb : Blob) : DiffItem :=
  { a_path := some p
    b_path := some p
    a_blob := some ca
    b_blob := some cb
    new_file := false
    deleted_file := false
    renamed_file := false
    diffText := "" }

/-- Patch-format diff entry for an exact rename (`rename from`/`rename to`
headers): the a path is the old name, the b path the new one, the content
unchanged. -/
def renamedItemPatch (pOld pNew : String) (c : Blob) : DiffItem :=
  { a_path := some pOld
    b_path := some pNew
    a_blob := some c
    b_blob := some c
    new_file := false
    deleted_file := false
    renamed_file := true
    diffText := "" }

/-- Paths tracked on the a side but absent from the b side, with their a-side
content. -/
def delsOf (a b : FileTree) : FileTree :=
  a.filter fun pc => decide (treeLookup b pc.1 = none)

/-- Paths tracked on the b side but absent from the a side, with their b-side
content. -/
def addsOf (a b : FileTree) : FileTree :=
  b.filter fun pc => decide (treeLookup a pc.1 = none)

/-- Paths tracked on both sides with differing content, with both contents. -/
def modsOf (a b : FileTree) : List (String × Blob × Blob) :=
  b.filterMap fun pc =>
    match treeLookup a pc.1 with
    | none => none
    | some ca => if ca = pc.2 then none else some (pc.1, ca, pc.2)

/-- Exact-rename detection (`git diff -M`, which the library passes by
default): each deletion is paired with a not-yet-matched addition of identical
content, becoming one rename; the rest stay deletions and additions.  A
deletion is never paired with an addition at the same path — such a path would
be tracked on both sides and in no deletion.  Returns
(renames `(old, new, content)`, unmatched deletions, unmatched additions). -/
def pairRenames :
    FileTree → FileTree → List (String × String × Blob) × FileTree × FileTree
  | [], adds => ([], [], adds)
  | (p, c) :: ds, adds =>
    match adds.find? fun qc => qc.2 == c && p != qc.1 with
    | some (q, _) =>
      let rest := pairRenames ds (adds.eraseP fun qc => qc.1 == q)
      ((p, q, c) :: rest.1, rest.2.1, rest.2.2)
    | none =>
      let rest := pairRenames ds adds
      (rest.1, (p, c) :: rest.2.1, rest.2.2)

/-- `a_commit.diff(b_commit, create_patch=True)` as the source consumes it:
the diff entries of `git diff a b` parsed from the patch output.  Entry order
is not part of any claim; the model lists renames, deletions, additions, then
modifications. -/
def gitDiffPatchFmt (a b : FileTree) : List DiffItem :=
  let paired := pairRenames (delsOf a b) (addsOf a b)
  paired.1.map (fun r => renamedItemPatch r.1 r.2.1 r.2.2)
    ++ paired.2.1.map (fun pc => deletedItemPatch pc.1 pc.2)
    ++ paired.2.2.map (fun pc => addedItemPatch pc.1 pc.2)
    ++ (modsOf a b).map (fun m => modifiedItemPatch m.1 m.2.1 m.2.2)

/-- Raw-format diff entry (no `create_patch`): the library parses the
`--raw -z` output, recording the entry's single path into both path fields for
additions, deletions and modifications, and the two names for renames.  Blobs
are absent exactly on the `/dev/null` side. -/
def rawItem (aP bP : String) (ca cb : Option Blob)
    (isNew isDel isRen : Bool) : DiffItem :=
  { a_path := some aP
    b_path := some bP
    a_blob := ca
    b_blob := cb
    new_file := isNew
    deleted_file := isDel
    renamed_file := isRen
    diffText := "" }

/-- `a_commit.diff(b_commit)` without `create_patch`: the same change set as
`gitDiffPatchFmt`, parsed from the raw output, where every entry carries its
path in both path fields (no `/dev/null` collapse to `None`). -/
def gitDiffRawFmt (a b : FileTree) : List DiffItem :=
  let paired := pairRenames (delsOf a b) (addsOf a b)
  paired.1.map (fun r => rawItem r.1 r.2.1 (some r.2.2) (some r.2.2) false false true)
    ++ paired.2.1.map (fun pc => rawItem pc.1 pc.1 (some pc.2) none false true false)
    ++ paired.2.2.map (fun pc => rawItem pc.1 pc.1 none (some pc.2) true false false)
    ++ (modsOf a b).map (fun m => rawItem m.1 m.1 (some m.2.1) (some m.2.2) false false false)

/-- The per-entry body of `LocalGitProvider.get_diff_files` (lines 90-114):
read each side's content when its blob exists (else the empty string),
classify `ADDED` before `DELETED` before `RENAMED` before `MODIFIED`, take the
post-change path from `b_path`, and set `old_filename` to `a_path` exactly
when the two parsed paths differ. -/
def mkFilePatchInfo (d : DiffItem) : FilePatchInfo :=
  { original_content := d.a_blob.getD ""
    new_content := d.b_blob.getD ""
    raw_patch := d.diffText
    path := d.b_path
    edit_type :=
      if d.new_file then .ADDED
      else if d.deleted_file then .DELETED
      else if d.renamed_file then .RENAMED
      else .MODIFIED
    old_filename := if d.a_path = d.b_path then none else d.a_path }

/-- `LocalGitProvider.get_diff_files` (lines 83-116) on the two resolved
commits: `head.commit.diff(branch.commit, create_patch=True, R=True)` runs
`git diff -R head branch`, i.e. `git diff branch head`, so the a side is the
comparison branch's tree and the b side the current `HEAD`'s tree; each entry
is then turned into a File Patch Record. -/
def get_diff_files (headTree branchTree : FileTree) : List FilePatchInfo :=
  (gitDiffPatchFmt branchTree headTree).map mkFilePatchInfo

/-- `LocalGitProvider.get_files` (lines 118-131): fail with `KeyError` when no
branch has the comparison name, else list `a_path` of every entry of
`head.commit.diff(branch.commit)` — the raw-format diff with `HEAD` as the a
side and no reversal flag. -/
def get_files (headTree : FileTree) (branches : List (String × FileTree))
    (branch_name : String) : Except PyErr (List (Option String)) :=
  if (branches.map Prod.fst).contains branch_name then
    match treeLookup branches branch_name with
    | some branchTree => .ok ((gitDiffRawFmt headTree branchTree).map (·.a_path))
    | none => .error .keyError
  else .error .keyError

/-- `str.rfind(c)` over a string's code points: the index of the last
occurrence of `c`, when there is one. -/
def pyRFind (c : Char) : List Char → Option Nat
  | [] => none
  | x :: xs =>
    match pyRFind c xs with
    | some i => some (i + 1)
    | none => if x = c then some 0 else none

/-- `str.split(sep)` for a one-character separator: the (never empty) list of
chunks between occurrences of `sep`. -/
def pySplitChar (sep : Char) : List Char → List (List Char)
  | [] => [[]]
  | c :: cs =>
    match pySplitChar sep cs with
    | [] => [[]]
    | chunk :: rest =>
      if c = sep then [] :: chunk :: rest else (c :: chunk) :: rest

/-- `PurePath.name`: the final slash-separated component of a repository
path. -/
def lastComponent (p : String) : List Char :=
  (pySplitChar (Char.ofNat 47) p.data).getLastD []

/-- `PurePath.suffix` of a file name (CPython `pathlib`):
`i = name.rfind('.'); return name[i:] if 0 < i < len(name) - 1 else ''` —
the part from the last dot on, provided that dot is neither the first nor the
last character. -/
def pySuffix (name : List Char) : List Char :=
  match pyRFind (Char.ofNat 46) name with
  | some i => if 0 < i ∧ i < name.length - 1 then name.drop i else []
  | none => []

/-- The language key of one tracked path, as `get_languages` computes it
(line 172): `Path(item.path).suffix.lower().lstrip('.')`. -/
def extOf (p : String) : String :=
  String.mk
    (((pySuffix (lastComponent p)).map Char.toLower).dropWhile
      (fun c => c == Char.ofNat 46))

/-- `collections.Counter` over a list: one entry per distinct element with its
multiplicity.  (Python's `Counter` keys in first-occurrence order; entry order
is irrelevant to every claim, which read the result as a mapping.) -/
def counter (l : List String) : List (String × Nat) :=
  l.dedup.map fun x => (x, l.countP (fun y => y == x))

/-- Left-to-right effectful map over `Except`: the first failing element's
error propagates, as in a Python comprehension. -/
def exceptMapM {α β : Type} (f : α → Except PyErr β) :
    List α → Except PyErr (List β)
  | [] => .ok []
  | a :: as =>
    match f a with
    | .error e => .error e
    | .ok b =>
      match exceptMapM f as with
      | .error e => .error e
      | .ok bs => .ok (b :: bs)

/-- `LocalGitProvider.get_languages` (lines 165-176) on the tracked blobs of
`repo.tree()`: group the tracked paths by `extOf`, count each group, and turn
each count into `count / total_files * 100`.  The division is written
unguarded in the source; it is evaluated once per counted group, so the model
raises `ZeroDivisionError` exactly where Python would. -/
def get_languages (tree : FileTree) : Except PyErr (List (String × ℚ)) :=
  let filepaths := tree.map (·.1)
  let total := filepaths.length
  exceptMapM
    (fun lc =>
      if total = 0 then .error .zeroDivision
      else .ok (lc.1, (lc.2 : ℚ) / total * 100))
    (counter (filepaths.map extOf))

/-- Python string slicing `s[:n]`: the first `n` code points. -/
def pyTruncate (s : String) (n : Nat) : String :=
  String.mk (s.data.take n)

/-- `LocalGitProvider.get_pr_description` (lines 184-189) on the messages of
`iter_commits(branch_name + '..HEAD')`: join them with single spaces and keep
the first 200 characters. -/
def get_pr_description (msgs : List String) : String :=
  pyTruncate (String.intercalate " " msgs) 200

/-! ## Helper lemmas -/

theorem treeLookup_eq_none_iff {α : Type} (t : List (String × α)) (p : String) :
    treeLookup t p = none ↔ ∀ qc ∈ t, qc.1 ≠ p := by
  induction t with
  | nil => simp [treeLookup]
  | cons q t ih =>
    by_cases h : q.1 = p <;> simp [treeLookup, h, ih]

theorem treeLookup_of_mem {α : Type} {t : List (String × α)} {q : String}
    {c : α} (hnd : (t.map Prod.fst).Nodup) (h : (q, c) ∈ t) :
    treeLookup t q = some c := by
  induction t with
  | nil => simp at h
  | cons x t ih =>
    rcases List.mem_cons.mp h with h1 | h1
    · subst h1; simp [treeLookup]
    · have hx : x.1 ≠ q := by
        intro hq
        have : q ∈ t.map Prod.fst := List.mem_map_of_mem Prod.fst h1
        simp only [List.map_cons, List.nodup_cons] at hnd
        exact hnd.1 (hq ▸ this)
      simp only [treeLookup, if_neg hx]
      exact ih (by simpa using (List.nodup_cons.mp (by simpa using hnd)).2) h1

theorem treeLookup_ne_none_of_mem {α : Type} {t : List (String × α)}
    {q : String} {c : α} (h : (q, c) ∈ t) : treeLookup t q ≠ none := by
  intro hn
  exact (treeLookup_eq_none_iff t q).mp hn (q, c) h rfl

theorem exceptMapM_ok {α β : Type} (f : α → Except PyErr β) (g : α → β)
    (l : List α) (h : ∀ a ∈ l, f a = .ok (g a)) :
    exceptMapM f l = .ok (l.map g) := by
  induction l with
  | nil => rfl
  | cons a as ih =>
    have ha := h a (List.mem_cons_self a as)
    have has := ih fun x hx => h x (List.mem_cons_of_mem a hx)
    simp [exceptMapM, ha, has]

theorem pairRenames_renames_mem {ds as : FileTree} {x : String × String × Blob}
    (h : x ∈ (pairRenames ds as).1) :
    (∃ c, (x.1, c) ∈ ds) ∧ (∃ c, (x.2.1, c) ∈ as) ∧ x.1 ≠ x.2.1 := by
  induction ds generalizing as with
  | nil => simp [pairRenames] at h
  | cons d ds ih =>
    obtain ⟨p, c⟩ := d
    rw [pairRenames] at h
    rcases hf : List.find? (fun qc => qc.2 == c && p != qc.1) as with _ | ⟨q, cq⟩ <;>
      rw [hf] at h <;> dsimp only at h
    · obtain ⟨⟨c1, hc1⟩, ⟨c2, hc2⟩, hne⟩ := ih h
      exact ⟨⟨c1, List.mem_cons_of_mem _ hc1⟩, ⟨c2, hc2⟩, hne⟩
    · rcases List.mem_cons.mp h with h1 | h1
      · subst h1
        have hmem := List.mem_of_find?_eq_some hf
        have hpred := List.find?_some hf
        simp only [Bool.and_eq_true, beq_iff_eq, bne_iff_ne, ne_eq] at hpred
        exact ⟨⟨c, List.mem_cons_self _ ds⟩, ⟨cq, hmem⟩, hpred.2⟩
      · obtain ⟨⟨c1, hc1⟩, ⟨c2, hc2⟩, hne⟩ := ih h1
        exact ⟨⟨c1, List.mem_cons_of_mem _ hc1⟩,
          ⟨c2, List.eraseP_subset _ hc2⟩, hne⟩

theorem pairRenames_dels_mem {ds as : FileTree} {x : String × Blob}
    (h : x ∈ (pairRenames ds as).2.1) : x ∈ ds := by
  induction ds generalizing as with
  | nil => simp [pairRenames] at h
  | cons d ds ih =>
    obtain ⟨p, c⟩ := d
    rw [pairRenames] at h
    rcases hf : List.find? (fun qc => qc.2 == c && p != qc.1) as with _ | ⟨q, cq⟩ <;>
      rw [hf] at h <;> dsimp only at h
    · rcases List.mem_cons.mp h with h1 | h1
      · exact h1 ▸ List.mem_cons_self _ ds
      · exact List.mem_cons_of_mem _ (ih h1)
    · exact List.mem_cons_of_mem _ (ih h)

theorem pairRenames_adds_mem {ds as : FileTree} {x : String × Blob}
    (h : x ∈ (pairRenames ds as).2.2) : x ∈ as := by
  induction ds generalizing as with
  | nil => simpa [pairRenames] using h
  | cons d ds ih =>
    obtain ⟨p, c⟩ := d
    rw [pairRenames] at h
    rcases hf : List.find? (fun qc => qc.2 == c && p != qc.1) as with _ | ⟨q, cq⟩ <;>
      rw [hf] at h <;> dsimp only at h
    · exact ih h
    · exact List.eraseP_subset _ (ih h)

theorem delsOf_sub (a b : FileTree) : delsOf a b ⊆ a :=
  fun _ hx => (List.mem_filter.mp hx).1

theorem addsOf_sub (a b : FileTree) : addsOf a b ⊆ b :=
  fun _ hx => (List.mem_filter.mp hx).1

theorem gitDiffPatchFmt_add {base : FileTree} {p : String} {c : Blob}
    (hp : treeLookup base p = none) (hnd : (base.map Prod.fst).Nodup) :
    gitDiffPatchFmt base ((p, c) :: base) = [addedItemPatch p c] := by
  have hbase : ∀ qc ∈ base, treeLookup base qc.1 ≠ none := by
    intro qc hqc
    exact treeLookup_ne_none_of_mem (c := qc.2) hqc
  have hdels : delsOf base ((p, c) :: base) = [] := by
    apply List.filter_eq_nil_iff.mpr
    intro qc hqc
    simp only [decide_eq_true_eq, treeLookup]
    by_cases hpq : p = qc.1
    · simp [hpq]
    · simp only [if_neg hpq]
      exact hbase qc hqc
  have hadds : addsOf base ((p, c) :: base) = [(p, c)] := by
    unfold addsOf
    rw [List.filter_cons]
    simp only [hp, decide_true_eq_true]
    have : base.filter (fun pc => decide (treeLookup base pc.1 = none)) = [] := by
      apply List.filter_eq_nil_iff.mpr
      intro qc hqc
      simpa using hbase qc hqc
    simp [this]
  have hmods : modsOf base ((p, c) :: base) = [] := by
    apply List.filterMap_eq_nil_iff.mpr
    intro qc hqc
    rcases List.mem_cons.mp hqc with h1 | h1
    · subst h1
      simp [hp]
    · obtain ⟨q, cq⟩ := qc
      rw [treeLookup_of_mem hnd h1]
      simp
  rw [gitDiffPatchFmt, hdels, hadds, hmods]
  rfl

theorem gitDiffPatchFmt_del {base : FileTree} {p : String} {c : Blob}
    (hp : treeLookup base p = none) (hnd : (base.map Prod.fst).Nodup) :
    gitDiffPatchFmt ((p, c) :: base) base = [deletedItemPatch p c] := by
  have hbase : ∀ qc ∈ base, treeLookup base qc.1 ≠ none := by
    intro qc hqc
    exact treeLookup_ne_none_of_mem (c := qc.2) hqc
  have hne : ∀ qc ∈ base, qc.1 ≠ p := by
    intro qc hqc
    exact (treeLookup_eq_none_iff base p).mp hp qc hqc
  have hdels : delsOf ((p, c) :: base) base = [(p, c)] := by
    unfold delsOf
    rw [List.filter_cons]
    simp only [hp, decide_true_eq_true]
    have : base.filter (fun pc => decide (treeLookup base pc.1 = none)) = [] := by
      apply List.filter_eq_nil_iff.mpr
      intro qc hqc
      simpa using hbase qc hqc
    simp [this]
  have hadds : addsOf ((p, c) :: base) base = [] := by
    apply List.filter_eq_nil_iff.mpr
    intro qc hqc
    simp only [decide_eq_true_eq, treeLookup]
    by_cases hpq : p = qc.1
    · simp [hpq]
    · simp only [if_neg hpq]
      exact hbase qc hqc
  have hmods : modsOf ((p, c) :: base) base = [] := by
    apply List.filterMap_eq_nil_iff.mpr
    intro qc hqc
    obtain ⟨q, cq⟩ := qc
    have hpq : ¬ (p = q) := fun h => hne (q, cq) hqc h.symm
    have hq : treeLookup ((p, c) :: base) q = some cq := by
      simp only [treeLookup, if_neg hpq]
      exact treeLookup_of_mem hnd hqc
    rw [hq]
    simp
  rw [gitDiffPatchFmt, hdels, hadds, hmods]
  rfl

/-! ## Claims -/

/-- C1: Diff synthesis is direction-consistent.  For branches A (base, tree
`base`) and B (target, tree `(p, c) :: base`, which adds the file `p`),
`get_diff_files` with B as the current `HEAD` and A as the comparison branch
classifies `p` as `ADDED` with empty original content, and with the two
branches swapped classifies the same file as `DELETED`. -/
theorem get_diff_files_direction (base : FileTree) (p : String) (c : Blob)
    (hp : treeLookup base p = none) (hnd : (base.map Prod.fst).Nodup) :
    ((get_diff_files ((p, c) :: base) base).map
        (fun f => (f.edit_type, f.original_content, f.path)) =
      [(EDIT_TYPE.ADDED, "", some p)]) ∧
    ((get_diff_files base ((p, c) :: base)).map
        (fun f => (f.edit_type, f.original_content)) =
      [(EDIT_TYPE.DELETED, c)]) := by
  constructor
  · unfold get_diff_files
    rw [gitDiffPatchFmt_add hp hnd]
    rfl
  · unfold get_diff_files
    rw [gitDiffPatchFmt_del hp hnd]
    rfl

/-- Witness for C1 at a concrete pair of branch trees: branch B adds
`x.txt` with content `hi` over branch A, which tracks only `keep.txt`. -/
theorem get_diff_files_direction_witness :
    ((get_diff_files [("x.txt", "hi"), ("keep.txt", "k")] [("keep.txt", "k")]).map
        (fun f => (f.edit_type, f.original_content, f.path)) =
      [(EDIT_TYPE.ADDED, "", some "x.txt")]) ∧
    ((get_diff_files [("keep.txt", "k")] [("x.txt", "hi"), ("keep.txt", "k")]).map
        (fun f => (f.edit_type, f.original_content)) =
      [(EDIT_TYPE.DELETED, "hi")]) :=
  get_diff_files_direction [("keep.txt", "k")] "x.txt" "hi" (by decide) (by decide)

/-- C2 (code bug): for every repository state and temporary branch name,
construction aborts with `AttributeError`: `__init__` (line 38) invokes
`self._prepare_repo()`, but the class defines the method as `prepare_repo`
(line 62) and neither the class nor the interface declares `_prepare_repo`, so
the state preparation, the eager diff computation and the `PullRequestMimic`
construction are never reached. -/
theorem localGitProvider_init_attribute_error (r : MRepo) (tmp : String) :
    localGitProvider_init r tmp = (r, some PyErr.attributeError) := by
  simp [localGitProvider_init, resolvePrepMethod, classPrepMethodTable,
    basePrepMethodTable]

/-- C3: on a repository with uncommitted changes, `prepare_repo` fails with
the dirty-working-tree error and performs no mutation: the returned repository
state is the input state, so no temporary branch was created and no checkout
or rebase occurred. -/
theorem prepare_repo_dirty (tmp : String) (r : MRepo) (h : r.dirty = true) :
    prepare_repo tmp r = (r, some PyErr.dirtyWorkingTree) := by
  simp [prepare_repo, h]

/-- Witness for C3 at a concrete dirty repository. -/
theorem prepare_repo_dirty_witness :
    prepare_repo "pr_agent_tmp"
        ⟨true, ["main", "feat"], some "feat", false, false⟩ =
      (⟨true, ["main", "feat"], some "feat", false, false⟩,
       some PyErr.dirtyWorkingTree) :=
  prepare_repo_dirty "pr_agent_tmp"
    ⟨true, ["main", "feat"], some "feat", false, false⟩ rfl

/-- C8: `get_pr_description` returns the space-joined commit messages of the
`branch_name..HEAD` range truncated to their first 200 characters, so its
result never has length greater than 200, however long the joined messages
are. -/
theorem get_pr_description_max200 (msgs : List String) :
    get_pr_description msgs = pyTruncate (String.intercalate " " msgs) 200 ∧
    (get_pr_description msgs).length ≤ 200 := by
  refine ⟨rfl, ?_⟩
  show ((String.intercalate " " msgs).data.take 200).length ≤ 200
  simp [List.length_take]

/-- C9 (refuted): on a repository whose tree has zero tracked blobs,
`get_languages` does not raise `ZeroDivisionError`: the dict comprehension
iterates over the (empty) `Counter`, so the unguarded division by
`total_files` is never evaluated, and the empty mapping is returned. -/
theorem get_languages_empty_tree :
    get_languages ([] : FileTree) = .ok [] := rfl

theorem get_languages_ok (tree : FileTree) (h : tree ≠ []) :
    get_languages tree =
      .ok ((counter ((tree.map (·.1)).map extOf)).map
        (fun lc => (lc.1, (lc.2 : ℚ) / ((tree.map (·.1)).length : ℚ) * 100))) := by
  unfold get_languages
  apply exceptMapM_ok
  intro x hx
  have hlen : (tree.map (·.1)).length ≠ 0 := by
    simp only [List.length_map]
    intro hh
    exact h (List.length_eq_zero.mp hh)
  simp [hlen, h]

/-- C9 amended: `get_languages` never fails — on an empty tree the division is
never executed, and on a nonempty tree the divisor is positive. -/
theorem get_languages_never_fails (tree : FileTree) :
    ∃ m, get_languages tree = .ok m := by
  cases tree with
  | nil => exact ⟨[], rfl⟩
  | cons a t => exact ⟨_, get_languages_ok (a :: t) (by simp)⟩

theorem get_languages_mapping (tree : FileTree) (h : tree ≠ []) :
    ∃ m, get_languages tree = .ok m ∧
      ∀ e q, (e, q) ∈ m ↔
        (e ∈ tree.map (fun pc => extOf pc.1) ∧
         q = ((tree.map (fun pc => extOf pc.1)).countP (fun y => y == e) : ℚ) /
              (tree.length : ℚ) * 100) := by
  refine ⟨_, get_languages_ok tree h, ?_⟩
  intro e q
  rw [counter]
  simp only [List.map_map, List.mem_map, List.mem_dedup, List.length_map,
    Function.comp]
  constructor
  · rintro ⟨x, hx, hxe⟩
    simp only [Prod.mk.injEq] at hxe
    obtain ⟨hx1, hx2⟩ := hxe
    subst hx1
    exact ⟨hx, hx2.symm⟩
  · rintro ⟨he, hq⟩
    refine ⟨e, he, ?_⟩
    rw [hq]
    rfl

/-- C7: on a repository with at least one tracked file, `get_languages`
succeeds and returns exactly the mapping that sends each occurring language
key (the lowercased extension without its leading dot, the empty string for
files without an extension) to `count / total * 100`, its share of the total
tracked-file count. -/
theorem get_languages_percentages (tree : FileTree) (h : tree ≠ []) :
    ∃ m, get_languages tree = .ok m ∧
      ∀ e q, (e, q) ∈ m ↔
        (e ∈ tree.map (fun pc => extOf pc.1) ∧
         q = ((tree.map (fun pc => extOf pc.1)).countP (fun y => y == e) : ℚ) /
              (tree.length : ℚ) * 100) :=
  get_languages_mapping tree h

/-- Witness for C7 at the spec's example repository: three `.py` files and
one `.md` file. -/
theorem get_languages_percentages_witness :
    ∃ m,
      get_languages [("a.py", "1"), ("b.py", "2"), ("c.py", "3"), ("d.md", "4")] =
        .ok m ∧
      ∀ e q, (e, q) ∈ m ↔
        (e ∈ ([("a.py", "1"), ("b.py", "2"), ("c.py", "3"), ("d.md", "4")] : FileTree).map
              (fun pc => extOf pc.1) ∧
         q = ((([("a.py", "1"), ("b.py", "2"), ("c.py", "3"), ("d.md", "4")] : FileTree).map
                (fun pc => extOf pc.1)).countP (fun y => y == e) : ℚ) /
              ((([("a.py", "1"), ("b.py", "2"), ("c.py", "3"), ("d.md", "4")] : FileTree).length : ℚ)) * 100) :=
  get_languages_percentages
    [("a.py", "1"), ("b.py", "2"), ("c.py", "3"), ("d.md", "4")] (by decide)

/-- The spec's concrete instance of C7: three `.py` files and one `.md` file
give the mapping with `py` at 75 percent and `md` at 25 percent. -/
theorem get_languages_three_py_one_md :
    ∀ m,
      get_languages [("a.py", "1"), ("b.py", "2"), ("c.py", "3"), ("d.md", "4")] =
        .ok m →
      (("py", (75 : ℚ)) ∈ m ∧ ("md", (25 : ℚ)) ∈ m ∧ m.length = 2) := by
  intro m hm
  obtain ⟨m2, hm2, hiff⟩ := get_languages_mapping
    [("a.py", "1"), ("b.py", "2"), ("c.py", "3"), ("d.md", "4")] (by decide)
  rw [hm2] at hm
  have hmm : m2 = m := Except.ok.inj hm
  subst hmm
  have hcntpy : (([("a.py", "1"), ("b.py", "2"), ("c.py", "3"), ("d.md", "4")] : FileTree).map
      (fun pc => extOf pc.1)).countP (fun y => y == "py") = 3 := by decide
  have hcntmd : (([("a.py", "1"), ("b.py", "2"), ("c.py", "3"), ("d.md", "4")] : FileTree).map
      (fun pc => extOf pc.1)).countP (fun y => y == "md") = 1 := by decide
  refine ⟨(hiff "py" 75).mpr ⟨by decide, ?_⟩, (hiff "md" 25).mpr ⟨by decide, ?_⟩, ?_⟩
  · rw [hcntpy]
    norm_num
  · rw [hcntmd]
    norm_num
  · rw [get_languages_ok _ (by decide)] at hm2
    have := Except.ok.inj hm2
    rw [← this]
    decide

theorem teardown_checkout_first (r : MRepo) (orig tmp : String)
    (horig : orig ∈ r.heads) (hunm : r.unmergedIndex = false) :
    (teardown orig tmp r).1.headState = some orig := by
  simp only [teardown, gitCheckoutBranch, hunm, Bool.false_eq_true, if_false,
    if_pos horig]
  by_cases h1 : tmp ∈ r.heads
  · simp only [h1, if_true, deleteHeadForce]
    by_cases h2 : orig = tmp
    · simp [h2]
    · simp [h2]
  · simp [h1]

theorem prepare_teardown_rebase_ok (r : MRepo) (orig tmp : String)
    (horig : orig ∈ r.heads) (hdirty : r.dirty = false) (hne : orig ≠ tmp)
    (hnodup : r.heads.Nodup) (hunm : r.unmergedIndex = false)
    (hconf : r.rebaseConflict = false) :
    (teardown orig tmp (prepare_repo tmp r).1).1.headState = some orig ∧
    tmp ∉ (teardown orig tmp (prepare_repo tmp r).1).1.heads ∧
    (teardown orig tmp (prepare_repo tmp r).1).2 = none := by
  by_cases hmem : tmp ∈ r.heads
  · by_cases hhr : r.headState = some tmp
    · have hprep : (prepare_repo tmp r).1 = r := by
        simp [prepare_repo, hdirty, hmem, deleteHeadForce, hhr]
      rw [hprep]
      simp only [teardown, gitCheckoutBranch, hunm, Bool.false_eq_true,
        if_false, if_pos horig]
      simp only [hmem, if_true, deleteHeadForce]
      have : ¬ (orig = tmp) := hne
      simp [this, hnodup.not_mem_erase]
    · have hprep : (prepare_repo tmp r).1 =
          { r with heads := tmp :: r.heads.erase tmp,
                   headState := some tmp } := by
        simp [prepare_repo, hdirty, hmem, deleteHeadForce, hhr,
          checkoutNewBranch, hconf]
      rw [hprep]
      have horig2 : orig ∈ tmp :: r.heads.erase tmp :=
        List.mem_cons_of_mem tmp ((List.mem_erase_of_ne hne).mpr horig)
      simp only [teardown, gitCheckoutBranch, hunm, Bool.false_eq_true,
        if_false, if_pos horig2]
      simp only [List.mem_cons_self, if_true, deleteHeadForce]
      have : ¬ (orig = tmp) := hne
      simp [this, List.erase_cons_head, hnodup.not_mem_erase]
  · have hprep : (prepare_repo tmp r).1 =
        { r with heads := tmp :: r.heads, headState := some tmp } := by
      simp [prepare_repo, hdirty, hmem, checkoutNewBranch, hconf]
    rw [hprep]
    have horig2 : orig ∈ tmp :: r.heads := List.mem_cons_of_mem tmp horig
    simp only [teardown, gitCheckoutBranch, hunm, Bool.false_eq_true,
      if_false, if_pos horig2]
    simp only [List.mem_cons_self, if_true, deleteHeadForce]
    have : ¬ (orig = tmp) := hne
    simp [this, List.erase_cons_head, hmem]

theorem prepare_teardown_conflict (r : MRepo) (orig tmp : String)
    (hdirty : r.dirty = false) (hconf : r.rebaseConflict = true)
    (hstale : tmp ∉ r.heads) :
    (teardown orig tmp (prepare_repo tmp r).1).2 =
      some PyErr.gitCommandError ∧
    (teardown orig tmp (prepare_repo tmp r).1).1.headState = none ∧
    tmp ∈ (teardown orig tmp (prepare_repo tmp r).1).1.heads := by
  have hprep : (prepare_repo tmp r).1 =
      { r with heads := tmp :: r.heads, headState := none,
               unmergedIndex := true } := by
    simp [prepare_repo, hdirty, hstale, checkoutNewBranch, hconf]
  rw [hprep]
  simp [teardown, gitCheckoutBranch]

/-- C4 (code bug): a conflicted rebase leaves the repository mid-rebase, with
unmerged index entries and `HEAD` detached, so teardown's very first step —
`repo.git.checkout` of the branch captured at construction — fails ("you need
to resolve your current index first") and the error propagates out of
`__del__`: the original branch is not restored and the temporary branch
survives, contradicting the claimed "regardless of whether the rebase step
succeeded".  Evaluated at a clean repository on `feat` whose rebase onto
`main` conflicts.  (When the rebase succeeds, the claimed restoration does
hold: `prepare_teardown_rebase_ok`.) -/
theorem prepare_teardown_conflicted_rebase :
    (teardown "feat" "pr_agent_tmp"
        (prepare_repo "pr_agent_tmp"
          ⟨false, ["main", "feat"], some "feat", true, false⟩).1).2 =
      some PyErr.gitCommandError ∧
    (teardown "feat" "pr_agent_tmp"
        (prepare_repo "pr_agent_tmp"
          ⟨false, ["main", "feat"], some "feat", true, false⟩).1).1.headState ≠
      some "feat" ∧
    "pr_agent_tmp" ∈ (teardown "feat" "pr_agent_tmp"
        (prepare_repo "pr_agent_tmp"
          ⟨false, ["main", "feat"], some "feat", true, false⟩).1).1.heads := by
  decide

/-- C5: the per-entry classification checks `new_file`, then `deleted_file`,
then `renamed_file`, in that priority order, defaulting to `MODIFIED`; in
particular any renamed entry that is neither an addition nor a deletion — its
content may have changed or not — is reported as `RENAMED` with `old_filename`
populated from the pre-change path. -/
theorem mkFilePatchInfo_classification (d : DiffItem) :
    (d.new_file = true → (mkFilePatchInfo d).edit_type = .ADDED) ∧
    (d.new_file = false → d.deleted_file = true →
      (mkFilePatchInfo d).edit_type = .DELETED) ∧
    (d.new_file = false → d.deleted_file = false → d.renamed_file = true →
      (mkFilePatchInfo d).edit_type = .RENAMED) ∧
    (d.new_file = false → d.deleted_file = false → d.renamed_file = false →
      (mkFilePatchInfo d).edit_type = .MODIFIED) ∧
    (d.renamed_file = true → d.new_file = false → d.deleted_file = false →
      d.a_path ≠ d.b_path →
      (mkFilePatchInfo d).edit_type = .RENAMED ∧
      (mkFilePatchInfo d).old_filename = d.a_path) := by
  unfold mkFilePatchInfo
  refine ⟨?_, ?_, ?_, ?_, ?_⟩ <;> intros <;> simp_all

/-- C6 counterexample: deleting the non-empty file `x.txt` yields a File Patch
Record whose `path` is `None` (the `+++ /dev/null` side of the patch) and
whose `old_filename` is populated although the edit type is `DELETED`, not
`RENAMED`. -/
theorem get_diff_files_deleted_breaks_invariant :
    (get_diff_files [] [("x.txt", "hello")]).map
        (fun f => (f.path, f.old_filename, f.edit_type)) =
      [(none, some "x.txt", EDIT_TYPE.DELETED)] := rfl


/-- C6 amended: for trees whose paths are all non-empty, every synthesized
record has a non-empty `path` except the `DELETED` records of non-empty files,
whose `path` is `None`; and `old_filename` is `None` unless the record is
`RENAMED` or is such a path-less `DELETED` record. -/
theorem get_diff_files_path_invariant (hT bT : FileTree) (f : FilePatchInfo)
    (hpa : ∀ pc ∈ bT, pc.1 ≠ "") (hpb : ∀ pc ∈ hT, pc.1 ≠ "")
    (hf : f ∈ get_diff_files hT bT) :
    (∀ p, f.path = some p → p ≠ "") ∧
    (f.path = none → f.edit_type = .DELETED) ∧
    (f.old_filename ≠ none →
      f.edit_type = .RENAMED ∨ (f.edit_type = .DELETED ∧ f.path = none)) := by
  rw [get_diff_files] at hf
  obtain ⟨d, hd, rfl⟩ := List.mem_map.mp hf
  rw [gitDiffPatchFmt] at hd
  simp only [List.mem_append] at hd
  rcases hd with ((h | h) | h) | h
  · -- renamed entry
    obtain ⟨x, hx, hxd⟩ := List.mem_map.mp h
    subst hxd
    obtain ⟨⟨c1, hc1⟩, ⟨c2, hc2⟩, hne⟩ := pairRenames_renames_mem hx
    have hq : x.2.1 ≠ "" := hpb (x.2.1, c2) (addsOf_sub bT hT hc2)
    refine ⟨?_, ?_, ?_⟩
    · intro p hp
      simp only [mkFilePatchInfo, renamedItemPatch, Option.some.injEq] at hp
      exact hp ▸ hq
    · intro hnone
      simp [mkFilePatchInfo, renamedItemPatch] at hnone
    · intro _
      left
      rfl
  · -- deleted entry
    obtain ⟨pc, hpc, hxd⟩ := List.mem_map.mp h
    subst hxd
    have hp1 : pc.1 ≠ "" := hpa pc (delsOf_sub bT hT (pairRenames_dels_mem hpc))
    by_cases hc : pc.2 = ""
    · refine ⟨?_, ?_, ?_⟩
      · intro p hp
        simp only [mkFilePatchInfo, deletedItemPatch, hc, if_true,
          Option.some.injEq] at hp
        exact hp ▸ hp1
      · intro hnone
        simp [mkFilePatchInfo, deletedItemPatch, hc] at hnone
      · intro hold
        exfalso
        apply hold
        simp [mkFilePatchInfo, deletedItemPatch, hc]
    · refine ⟨?_, ?_, ?_⟩
      · intro p hp
        simp [mkFilePatchInfo, deletedItemPatch, hc] at hp
      · intro _
        rfl
      · intro _
        right
        refine ⟨rfl, ?_⟩
        simp [mkFilePatchInfo, deletedItemPatch, hc]
  · -- added entry
    obtain ⟨pc, hpc, hxd⟩ := List.mem_map.mp h
    subst hxd
    have hp1 : pc.1 ≠ "" := hpb pc (addsOf_sub bT hT (pairRenames_adds_mem hpc))
    refine ⟨?_, ?_, ?_⟩
    · intro p hp
      simp only [mkFilePatchInfo, addedItemPatch, Option.some.injEq] at hp
      exact hp ▸ hp1
    · intro hnone
      simp [mkFilePatchInfo, addedItemPatch] at hnone
    · intro hold
      exfalso
      apply hold
      by_cases hc : pc.2 = "" <;> simp [mkFilePatchInfo, addedItemPatch, hc]
  · -- modified entry
    obtain ⟨m3, hm3, hxd⟩ := List.mem_map.mp h
    subst hxd
    simp only [modsOf, List.mem_filterMap] at hm3
    obtain ⟨pc, hpc, heq⟩ := hm3
    rcases hl : treeLookup bT pc.1 with _ | ca
    · simp only [hl] at heq
      simp at heq
    simp only [hl] at heq
    by_cases hca : ca = pc.2
    · simp [hca] at heq
    · rw [if_neg hca] at heq
      obtain hm := Option.some.inj heq
      subst hm
      have hp1 : pc.1 ≠ "" := hpb pc hpc
      refine ⟨?_, ?_, ?_⟩
      · intro p hp
        simp only [mkFilePatchInfo, modifiedItemPatch, Option.some.injEq] at hp
        exact hp ▸ hp1
      · intro hnone
        simp [mkFilePatchInfo, modifiedItemPatch] at hnone
      · intro hold
        exfalso
        apply hold
        simp [mkFilePatchInfo, modifiedItemPatch]

/-- Witness for C6 (amended) at a concrete rename: `a.txt` renamed to `b.txt`
with identical content, giving the record with `path = b.txt`,
`old_filename = a.txt`, `edit_type = RENAMED`. -/
theorem get_diff_files_path_invariant_witness :
    (∀ p, ({ original_content := "same", new_content := "same", raw_patch := "",
             path := some "b.txt", edit_type := .RENAMED,
             old_filename := some "a.txt" } : FilePatchInfo).path = some p →
        p ≠ "") ∧
    (({ original_content := "same", new_content := "same", raw_patch := "",
        path := some "b.txt", edit_type := .RENAMED,
        old_filename := some "a.txt" } : FilePatchInfo).path = none →
      ({ original_content := "same", new_content := "same", raw_patch := "",
         path := some "b.txt", edit_type := .RENAMED,
         old_filename := some "a.txt" } : FilePatchInfo).edit_type = .DELETED) ∧
    (({ original_content := "same", new_content := "same", raw_patch := "",
        path := some "b.txt", edit_type := .RENAMED,
        old_filename := some "a.txt" } : FilePatchInfo).old_filename ≠ none →
      ({ original_content := "same", new_content := "same", raw_patch := "",
         path := some "b.txt", edit_type := .RENAMED,
         old_filename := some "a.txt" } : FilePatchInfo).edit_type = .RENAMED ∨
      (({ original_content := "same", new_content := "same", raw_patch := "",
          path := some "b.txt", edit_type := .RENAMED,
          old_filename := some "a.txt" } : FilePatchInfo).edit_type = .DELETED ∧
       ({ original_content := "same", new_content := "same", raw_patch := "",
          path := some "b.txt", edit_type := .RENAMED,
          old_filename := some "a.txt" } : FilePatchInfo).path = none)) :=
  get_diff_files_path_invariant [("b.txt", "same")] [("a.txt", "same")]
    { original_content := "same", new_content := "same", raw_patch := "",
      path := some "b.txt", edit_type := .RENAMED,
      old_filename := some "a.txt" }
    (by decide) (by decide) (by decide)

/-- C10 counterexample: for a file that exists only on the comparison branch,
`get_files` lists it as `some "x.txt"` — never `None` — even though the
corresponding File Patch Record's `path` is `None`; the raw (no-patch) diff
format always populates `a_path`. -/
theorem get_files_never_lists_none :
    get_files [] [("master", [("x.txt", "hello")])] "master" =
      .ok [some "x.txt"] ∧
    (get_diff_files [] [("x.txt", "hello")]).map (fun f => f.path) = [none] :=
  ⟨rfl, rfl⟩

/-- C10 amended: when the comparison branch exists, `get_files` returns the
`a_path` of every entry of the raw-format diff of `HEAD` against the branch
(no reversal flag), and — because the raw format records a path on both sides
of every entry — none of the listed paths is `None`. -/
theorem get_files_raw_a_paths (hT : FileTree)
    (branches : List (String × FileTree)) (bn : String) (bT : FileTree)
    (hb : treeLookup branches bn = some bT)
    (hbn : (branches.map Prod.fst).contains bn = true) :
    get_files hT branches bn = .ok ((gitDiffRawFmt hT bT).map (·.a_path)) ∧
    ∀ x ∈ (gitDiffRawFmt hT bT).map (·.a_path), x ≠ none := by
  constructor
  · unfold get_files
    rw [if_pos hbn, hb]
  · intro x hx
    obtain ⟨d, hd, rfl⟩ := List.mem_map.mp hx
    rw [gitDiffRawFmt] at hd
    simp only [List.mem_append] at hd
    rcases hd with ((h | h) | h) | h <;>
      obtain ⟨y, hy, hyd⟩ := List.mem_map.mp h <;> subst hyd <;> simp [rawItem]

/-- Witness for C10 (amended) at a concrete state: `HEAD` is empty and branch
`master` tracks `x.txt`. -/
theorem get_files_raw_a_paths_witness :
    get_files [] [("master", [("x.txt", "hello")])] "master" =
      .ok ((gitDiffRawFmt [] [("x.txt", "hello")]).map (·.a_path)) ∧
    ∀ x ∈ (gitDiffRawFmt [] [("x.txt", "hello")]).map (·.a_path), x ≠ none :=
  get_files_raw_a_paths [] [("master", [("x.txt", "hello")])] "master"
    [("x.txt", "hello")] (by decide) (by decide)
